import Mathlib

/-!
Verification of the CMinus-Language repository's working artifacts against
its specification: the Identitie codec (docs/identitie-number), the ByteChunk
stream parser (docs/byte-chunk/encoding.md), the standard type header
(include/cm-types.h), the version header (include/c-minus.h), and the three
CLI entry stubs.
-/

/-! ## Identitie codec (docs/identitie-number) -/

/-- Status constant from idte.h: `#define IDTE_SUCCESS 0`. -/
def IDTE_SUCCESS : Nat := 0

/-- Status constant from idte.h: `#define IDTE_INVALID 1`. -/
def IDTE_INVALID : Nat := 1

/-- The 64-symbol Identitie alphabet, in index order, from identitie.md:
indices 0-9 are the decimal digits, 10-35 lowercase letters, 36-61 uppercase
letters, 62 underscore, 63 dollar sign. -/
def IDTE_ALPHABET : String :=
  "0123456789abcdefghijklmnopqrstuvwxyzABCDEFGHIJKLMNOPQRSTUVWXYZ_$"

/-- Character for a 6-bit group value (index into the alphabet). -/
def IDTE_char (d : Nat) : Char := IDTE_ALPHABET.toList.getD d (Char.ofNat 0)

/-- Index search over the alphabet list (the decode lookup table):
first position of `c` in `l`, offset by `i`. -/
def IDTE_idxOf : List Char → Char → Nat → Option Nat
  | [], _, _ => none
  | a :: as, c, i => if a = c then some i else IDTE_idxOf as c (i + 1)

/-- Map a character back to its 6-bit index, or `none` when the character is
outside the Identitie alphabet. -/
def IDTE_charIndex (c : Char) : Option Nat := IDTE_idxOf IDTE_ALPHABET.toList c 0

/-- The `n` base-64 digit groups of `v`, most significant group first
(identitie.md encoding step 2: divide into six-bit groups, zero-padding the top). -/
def IDTE_digits : Nat → Nat → List Nat
  | 0, _ => []
  | n + 1, v => IDTE_digits n (v / 64) ++ [v % 64]

/-- Modelled from the spec: `IDTE_encodeHash` (declared in idte.h; the body
idte.c is not in the repository snapshot). Fixed-length encoding per
identitie.md: partition the 64-bit value into 11 six-bit groups, most
significant first, and map each group through the alphabet. -/
def IDTE_encodeHash (value : Nat) : List Char :=
  (IDTE_digits 11 value).map IDTE_char

/-- Accumulating decode loop: fold the 6-bit indices most-significant-first,
failing on the first character outside the alphabet. -/
def IDTE_decodeLoop : List Char → Nat → Option Nat
  | [], acc => some acc
  | c :: cs, acc =>
      match IDTE_charIndex c with
      | none => none
      | some d => IDTE_decodeLoop cs (acc * 64 + d)

/-- Modelled from the spec: `IDTE_decodeHash` (declared in idte.h; the body
idte.c is not in the repository snapshot). Decoding per identitie.md: map each
of the 11 characters to its 6-bit index, concatenate into a 66-bit quantity,
discard the top 2 bits (keep the low 64); any character outside the alphabet
makes the input invalid. -/
def IDTE_decodeHash (s : List Char) : Option Nat :=
  if s.length = 11 then
    match IDTE_decodeLoop s 0 with
    | none => none
    | some n => some (n % 2 ^ 64)
  else none

/-- The status byte the decoder returns alongside the out-parameter:
0 on success, 1 on invalid input. -/
def IDTE_status : Option Nat → Nat
  | some _ => IDTE_SUCCESS
  | none => IDTE_INVALID

/-! ### Identitie lemmas -/

theorem IDTE_charIndex_char : ∀ d : Nat, d < 64 → IDTE_charIndex (IDTE_char d) = some d := by
  decide

theorem IDTE_char_mem : ∀ d : Nat, d < 64 → IDTE_char d ∈ IDTE_ALPHABET.toList := by
  decide

theorem IDTE_idxOf_not_mem (c : Char) :
    ∀ (l : List Char) (i : Nat), c ∉ l → IDTE_idxOf l c i = none := by
  intro l
  induction l with
  | nil => intro i _; rfl
  | cons a as ih =>
      intro i hmem
      have ha : ¬ a = c := fun h => hmem (h ▸ List.mem_cons_self a as)
      have has : c ∉ as := fun h => hmem (List.mem_cons_of_mem a h)
      simpa [IDTE_idxOf, ha] using ih (i + 1) has

theorem IDTE_charIndex_not_mem (c : Char) (h : c ∉ IDTE_ALPHABET.toList) :
    IDTE_charIndex c = none :=
  IDTE_idxOf_not_mem c IDTE_ALPHABET.toList 0 h

theorem IDTE_digits_length : ∀ (n v : Nat), (IDTE_digits n v).length = n := by
  intro n
  induction n with
  | zero => intro v; rfl
  | succ n ih => intro v; simp [IDTE_digits, ih]

theorem IDTE_digits_lt : ∀ (n v d : Nat), d ∈ IDTE_digits n v → d < 64 := by
  intro n
  induction n with
  | zero => intro v d h; simp [IDTE_digits] at h
  | succ n ih =>
      intro v d h
      simp only [IDTE_digits, List.mem_append, List.mem_singleton] at h
      rcases h with h | h
      · exact ih (v / 64) d h
      · simpa [h] using Nat.mod_lt v (by norm_num)

theorem IDTE_decodeLoop_append (xs ys : List Char) :
    ∀ acc : Nat, IDTE_decodeLoop (xs ++ ys) acc =
      match IDTE_decodeLoop xs acc with
      | none => none
      | some a => IDTE_decodeLoop ys a := by
  induction xs with
  | nil => intro acc; rfl
  | cons c cs ih =>
      intro acc
      simp only [List.cons_append, IDTE_decodeLoop]
      cases h : IDTE_charIndex c with
      | none => rfl
      | some d => exact ih (acc * 64 + d)

theorem IDTE_decodeLoop_digits :
    ∀ (n v acc : Nat),
      IDTE_decodeLoop ((IDTE_digits n v).map IDTE_char) acc =
        some (acc * 64 ^ n + v % 64 ^ n) := by
  intro n
  induction n with
  | zero => intro v acc; simp [IDTE_digits, IDTE_decodeLoop, Nat.mod_one]
  | succ n ih =>
      intro v acc
      have hlt : v % 64 < 64 := Nat.mod_lt v (by norm_num)
      simp only [IDTE_digits, List.map_append, List.map_cons, List.map_nil]
      rw [IDTE_decodeLoop_append, ih (v / 64) acc]
      simp only [IDTE_decodeLoop, IDTE_charIndex_char (v % 64) hlt]
      congr 1
      have hmul : v % (64 * 64 ^ n) = v % 64 + 64 * (v / 64 % 64 ^ n) := Nat.mod_mul
      have hpow : (64 : Nat) ^ (n + 1) = 64 * 64 ^ n := by ring
      rw [hpow, hmul]
      ring

theorem IDTE_decodeLoop_bad :
    ∀ (s : List Char) (acc : Nat) (c : Char),
      c ∈ s → IDTE_charIndex c = none → IDTE_decodeLoop s acc = none := by
  intro s
  induction s with
  | nil => intro acc c h _; simp at h
  | cons a as ih =>
      intro acc c hmem hnone
      rcases List.mem_cons.mp hmem with h | h
      · subst h; simp [IDTE_decodeLoop, hnone]
      · simp only [IDTE_decodeLoop]
        cases ha : IDTE_charIndex a with
        | none => rfl
        | some d => exact ih (acc * 64 + d) c h hnone

/-! ### Identitie claim theorems -/

/-- C1: Identitie fixed round-trip. For every 64-bit unsigned value `v`,
decoding the 11-character fixed encoding of `v` yields exactly `v` with the
success status 0. -/
theorem idte_fixed_roundtrip (v : Nat) (h : v < 2 ^ 64) :
    IDTE_decodeHash (IDTE_encodeHash v) = some v ∧
    IDTE_status (IDTE_decodeHash (IDTE_encodeHash v)) = IDTE_SUCCESS := by
  have hlen : (IDTE_encodeHash v).length = 11 := by
    simp [IDTE_encodeHash, IDTE_digits_length]
  have hloop : IDTE_decodeLoop (IDTE_encodeHash v) 0 = some (v % 64 ^ 11) := by
    simpa using IDTE_decodeLoop_digits 11 v 0
  have hsmall : v % 64 ^ 11 = v := Nat.mod_eq_of_lt (lt_of_lt_of_le h (by norm_num))
  have hdec : IDTE_decodeHash (IDTE_encodeHash v) = some v := by
    rw [IDTE_decodeHash, if_pos hlen, hloop]
    show some (v % 64 ^ 11 % 2 ^ 64) = some v
    rw [hsmall, Nat.mod_eq_of_lt h]
  exact ⟨hdec, by rw [hdec]; rfl⟩

theorem idte_fixed_roundtrip_witness :
    0xFE21B3A4D9C8E712 < 2 ^ 64 ∧
    (IDTE_decodeHash (IDTE_encodeHash 0xFE21B3A4D9C8E712) = some 0xFE21B3A4D9C8E712 ∧
     IDTE_status (IDTE_decodeHash (IDTE_encodeHash 0xFE21B3A4D9C8E712)) = IDTE_SUCCESS) :=
  ⟨by decide, idte_fixed_roundtrip 0xFE21B3A4D9C8E712 (by decide)⟩

/-- C2: Identitie fixed decode rejects invalid input. Any 11-character input
containing a character outside the 64-symbol alphabet decodes to no value and
yields the invalid status 1, not the success status 0. -/
theorem idte_decode_rejects_invalid (s : List Char) (hlen : s.length = 11)
    (hbad : ∃ c ∈ s, c ∉ IDTE_ALPHABET.toList) :
    IDTE_decodeHash s = none ∧ IDTE_status (IDTE_decodeHash s) = IDTE_INVALID := by
  rcases hbad with ⟨c, hmem, hnot⟩
  have hloop : IDTE_decodeLoop s 0 = none :=
    IDTE_decodeLoop_bad s 0 c hmem (IDTE_charIndex_not_mem c hnot)
  have hdec : IDTE_decodeHash s = none := by simp [IDTE_decodeHash, hlen, hloop]
  exact ⟨hdec, by rw [hdec]; rfl⟩

theorem idte_decode_rejects_invalid_witness :
    (['@', '0', '0', '0', '0', '0', '0', '0', '0', '0', '0'] : List Char).length = 11 ∧
    (∃ c ∈ (['@', '0', '0', '0', '0', '0', '0', '0', '0', '0', '0'] : List Char),
      c ∉ IDTE_ALPHABET.toList) ∧
    (IDTE_decodeHash ['@', '0', '0', '0', '0', '0', '0', '0', '0', '0', '0'] = none ∧
     IDTE_status (IDTE_decodeHash ['@', '0', '0', '0', '0', '0', '0', '0', '0', '0', '0']) =
       IDTE_INVALID) :=
  ⟨by decide, ⟨'@', by decide, by decide⟩,
   idte_decode_rejects_invalid _ (by decide) ⟨'@', by decide, by decide⟩⟩

/-- C2 counterexample: the character `O` is not outside the encoding's
alphabet — the alphabet table maps indices 36-61 to the uppercase letters, so
`O` is index 50 — and an 11-character input containing `O` is decoded
successfully with status 0, not rejected with the invalid status 1. -/
theorem idte_decode_accepts_O :
    'O' ∈ IDTE_ALPHABET.toList ∧
    IDTE_decodeHash ['O', '0', '0', '0', '0', '0', '0', '0', '0', '0', '0'] ≠ none ∧
    IDTE_status (IDTE_decodeHash ['O', '0', '0', '0', '0', '0', '0', '0', '0', '0', '0']) =
      IDTE_SUCCESS := by
  refine ⟨by decide, by decide, by decide⟩

/-- C3: Identitie fixed encode output shape. For every 64-bit unsigned input
the fixed encoding consists of exactly 11 characters, all drawn from the
64-symbol alphabet. -/
theorem idte_encode_shape (v : Nat) (h : v < 2 ^ 64) :
    (IDTE_encodeHash v).length = 11 ∧
    ∀ c ∈ IDTE_encodeHash v, c ∈ IDTE_ALPHABET.toList := by
  refine ⟨by simp [IDTE_encodeHash, IDTE_digits_length], ?_⟩
  intro c hc
  rcases List.mem_map.mp hc with ⟨d, hd, rfl⟩
  exact IDTE_char_mem d (IDTE_digits_lt 11 v d hd)

theorem idte_encode_shape_witness :
    (0 : Nat) < 2 ^ 64 ∧
    ((IDTE_encodeHash 0).length = 11 ∧ ∀ c ∈ IDTE_encodeHash 0, c ∈ IDTE_ALPHABET.toList) :=
  ⟨by decide, idte_encode_shape 0 (by decide)⟩

/-! ## ByteChunk stream parser (docs/byte-chunk/encoding.md) -/

/-- Continuation flag test from encoding.md §1.1: bit 7 (the MSB of the byte)
set means continuation byte. -/
def isCont (b : Nat) : Bool := Nat.testBit b 7

/-- Start byte test from encoding.md §1.2: bit 7 clear (hex range 0x00-0x7F). -/
def isStart (b : Nat) : Bool := !(isCont b)

/-- One transition of the two-state parser of encoding.md §2.2. The state is
`none` ("Waiting for Start") or `some cur` ("In Chunk" accumulating `cur`). -/
def BCstep : Option (List Nat) → Nat → Option (List Nat)
  | none, b => if isStart b then some [b] else none
  | some cur, b => if isStart b then some [b] else some (cur ++ [b])

/-- Chunks completed by one transition: a start byte arriving while in a chunk
completes the current chunk; nothing else emits. -/
def BCemit : Option (List Nat) → Nat → List (List Nat)
  | none, _ => []
  | some cur, b => if isStart b then [cur] else []

/-- Run the parser state machine over the remaining bytes from a given state;
per encoding.md §1.3 the current chunk also ends when the stream ends. -/
def BCrun : List Nat → Option (List Nat) → List (List Nat)
  | [], none => []
  | [], some cur => [cur]
  | b :: bs, s => BCemit s b ++ BCrun bs (BCstep s b)

/-- Batch parse of a byte stream: run the state machine from "Waiting for
Start" on the whole input. -/
def BCparse (input : List Nat) : List (List Nat) := BCrun input none

/-- The state after consuming a byte list. -/
def BCstate : List Nat → Option (List Nat) → Option (List Nat)
  | [], s => s
  | b :: bs, s => BCstate bs (BCstep s b)

/-- The chunks completed while consuming a byte list (not counting a chunk
still open at its end). -/
def BCout : List Nat → Option (List Nat) → List (List Nat)
  | [], _ => []
  | b :: bs, s => BCemit s b ++ BCout bs (BCstep s b)

/-- A well-formed chunk per encoding.md §1.3: one start byte first, then only
continuation bytes. -/
def isChunk : List Nat → Bool
  | [] => false
  | b :: bs => isStart b && bs.all isCont

/-- The parse of a byte stream from the first start byte at or after its
beginning: what "the next start byte onward" parses into. -/
def BCtail (post : List Nat) : List (List Nat) := BCrun (post.dropWhile isCont) none

/-! ### ByteChunk lemmas -/

theorem BCrun_append (l1 : List Nat) :
    ∀ (l2 : List Nat) (s : Option (List Nat)),
      BCrun (l1 ++ l2) s = BCout l1 s ++ BCrun l2 (BCstate l1 s) := by
  induction l1 with
  | nil => intro l2 s; rfl
  | cons b bs ih =>
      intro l2 s
      simp only [List.cons_append, BCrun, BCout, BCstate, List.append_eq, ih,
        List.append_assoc]

theorem BCrun_none_skip : ∀ bs : List Nat, BCrun bs none = BCrun (bs.dropWhile isCont) none := by
  intro bs
  induction bs with
  | nil => rfl
  | cons b bs ih =>
      cases h : isCont b with
      | true =>
          have hs : isStart b = false := by simp [isStart, h]
          simp [BCrun, BCemit, BCstep, hs, List.dropWhile, h, ih]
      | false =>
          have hs : isStart b = true := by simp [isStart, h]
          simp [List.dropWhile, h]

theorem BCrun_some (bs : List Nat) :
    ∀ c : List Nat,
      BCrun bs (some c) =
        (c ++ bs.takeWhile isCont) :: BCrun (bs.dropWhile isCont) none := by
  induction bs with
  | nil => intro c; simp [BCrun]
  | cons b bs ih =>
      intro c
      cases h : isCont b with
      | true =>
          have hs : isStart b = false := by simp [isStart, h]
          simp [BCrun, BCemit, BCstep, hs, List.takeWhile, List.dropWhile, h, ih]
      | false =>
          have hs : isStart b = true := by simp [isStart, h]
          simp [BCrun, BCemit, BCstep, hs, List.takeWhile, List.dropWhile, h,
            BCrun_none_skip bs]

theorem isChunk_append_cont (c : List Nat) (b : Nat) (hc : isChunk c = true)
    (hb : isCont b = true) : isChunk (c ++ [b]) = true := by
  cases c with
  | nil => simp [isChunk] at hc
  | cons a as =>
      simp only [isChunk, Bool.and_eq_true, List.all_eq_true] at hc
      simp only [List.cons_append, isChunk, Bool.and_eq_true, List.all_eq_true]
      refine ⟨hc.1, ?_⟩
      intro x hx
      rcases List.mem_append.mp hx with h | h
      · exact hc.2 x h
      · simpa [List.mem_singleton.mp h] using hb

theorem BCrun_chunks :
    ∀ (bs : List Nat) (s : Option (List Nat)),
      (∀ c0, s = some c0 → isChunk c0 = true) →
      ∀ c ∈ BCrun bs s, isChunk c = true := by
  intro bs
  induction bs with
  | nil =>
      intro s hs c hc
      cases s with
      | none => simp [BCrun] at hc
      | some c0 =>
          simp only [BCrun, List.mem_singleton] at hc
          exact hc ▸ hs c0 rfl
  | cons b bs ih =>
      intro s hs c hc
      simp only [BCrun, List.mem_append] at hc
      have hstep : ∀ c0, BCstep s b = some c0 → isChunk c0 = true := by
        intro c0 h0
        cases s with
        | none =>
            cases h : isStart b with
            | true =>
                simp only [BCstep, h, if_pos] at h0
                injection h0 with h0
                subst h0
                simp [isChunk, h]
            | false => simp [BCstep, h] at h0
        | some cur =>
            cases h : isStart b with
            | true =>
                simp only [BCstep, h, if_pos] at h0
                injection h0 with h0
                subst h0
                simp [isChunk, h]
            | false =>
                simp only [BCstep, h, Bool.false_eq_true, if_false, Option.some.injEq] at h0
                have hcont : isCont b = true := by
                  cases hcb : isCont b with
                  | true => rfl
                  | false => simp [isStart, hcb] at h
                exact h0 ▸ isChunk_append_cont cur b (hs cur rfl) hcont
      rcases hc with hc | hc
      · cases s with
        | none => simp [BCemit] at hc
        | some cur =>
            cases h : isStart b with
            | true =>
                simp only [BCemit, h, if_pos, List.mem_singleton] at hc
                exact hc ▸ hs cur rfl
            | false => simp [BCemit, h] at hc
      · exact ih (BCstep s b) hstep c hc

/-! ### ByteChunk claim theorems -/

/-- C5: ByteChunk leading-corruption recovery. Input `80 41 82` parses to
exactly one chunk `{41, 82}` (the stray leading continuation byte is
discarded), and an all-continuation input `80 81 82` parses to zero chunks. -/
theorem bytechunk_recovery_vectors :
    BCparse [0x80, 0x41, 0x82] = [[0x41, 0x82]] ∧ BCparse [0x80, 0x81, 0x82] = [] := by
  decide

/-- C6: ByteChunk chunk invariant. Every chunk the parser emits is non-empty,
begins with its unique start byte, continues with continuation bytes only
(exactly one start byte in total), and appending any further chunk to it never
forms a single chunk (chunks cannot merge). -/
theorem bytechunk_chunk_invariant (input : List Nat) (c : List Nat)
    (hc : c ∈ BCparse input) :
    c ≠ [] ∧
    (∃ b bs, c = b :: bs ∧ isStart b = true ∧ ∀ x ∈ bs, isCont x = true) ∧
    c.countP (fun b => isStart b) = 1 ∧
    ∀ d, isChunk d = true → isChunk (c ++ d) = false := by
  have hchunk : isChunk c = true := BCrun_chunks input none (by intro c0 h0; cases h0) c hc
  cases c with
  | nil => simp [isChunk] at hchunk
  | cons b bs =>
      simp only [isChunk, Bool.and_eq_true, List.all_eq_true] at hchunk
      obtain ⟨hb, hbs⟩ := hchunk
      refine ⟨by simp, ⟨b, bs, rfl, hb, hbs⟩, ?_, ?_⟩
      · have h0 : bs.countP (fun x => isStart x) = 0 := by
          rw [List.countP_eq_zero]
          intro a ha
          have := hbs a ha
          simp [isStart, this]
        rw [List.countP_cons_of_pos _ _ (by simpa using hb), h0]
      · intro d hd
        cases d with
        | nil => simp [isChunk] at hd
        | cons b2 bs2 =>
            simp only [isChunk, Bool.and_eq_true, List.all_eq_true] at hd
            have hb2 : isCont b2 = false := by
              have := hd.1
              simp [isStart] at this
              simpa using this
            simp only [List.cons_append, isChunk]
            simp [List.all_append, hb2]

theorem bytechunk_chunk_invariant_witness :
    ([0x41, 0x82] ∈ BCparse [0x41, 0x82]) ∧
    ([0x41, 0x82] ≠ ([] : List Nat) ∧
     (∃ b bs, ([0x41, 0x82] : List Nat) = b :: bs ∧ isStart b = true ∧
        ∀ x ∈ bs, isCont x = true) ∧
     ([0x41, 0x82] : List Nat).countP (fun b => isStart b) = 1 ∧
     ∀ d, isChunk d = true → isChunk ([0x41, 0x82] ++ d) = false) :=
  ⟨by decide, bytechunk_chunk_invariant [0x41, 0x82] [0x41, 0x82] (by decide)⟩

/-- The self-synchronization loss bound exactly as the specification states
it: after one byte of the stream is altered, the two parses share a common
chunk prefix, agree from the next start byte onward, and the differing middle
region of the original parse is at most one chunk. -/
def BCsyncClaimOne (pre : List Nat) (b bp : Nat) (post : List Nat) : Prop :=
  ∃ front m1 m2 : List (List Nat),
    BCparse (pre ++ b :: post) = front ++ m1 ++ BCtail post ∧
    BCparse (pre ++ bp :: post) = front ++ m2 ++ BCtail post ∧
    m1.length ≤ 1

theorem BCrun_cons_bound (x : Nat) (post : List Nat) (s : Option (List Nat)) :
    ∃ m : List (List Nat),
      BCrun (x :: post) s = m ++ BCtail post ∧ m.length ≤ 2 := by
  cases s with
  | none =>
      cases h : isStart x with
      | true =>
          refine ⟨[[x] ++ post.takeWhile isCont], ?_, by simp⟩
          simp [BCrun, BCemit, BCstep, h, BCrun_some, BCtail]
      | false =>
          refine ⟨[], ?_, by simp⟩
          simp [BCrun, BCemit, BCstep, h, BCrun_none_skip post, BCtail]
  | some cur =>
      cases h : isStart x with
      | true =>
          refine ⟨[cur, [x] ++ post.takeWhile isCont], ?_, by simp⟩
          simp [BCrun, BCemit, BCstep, h, BCrun_some, BCtail]
      | false =>
          refine ⟨[cur ++ [x] ++ post.takeWhile isCont], ?_, by simp⟩
          simp [BCrun, BCemit, BCstep, h, BCrun_some, BCtail]

/-- C7 counterexample: altering the second byte of `41 42` into `82` leaves
the original parse `[41], [42]` and the corrupted parse `[41 82]` with no
decomposition in which the differing original region is at most one chunk. -/
theorem bytechunk_sync_one_chunk_false : ¬ BCsyncClaimOne [0x41] 0x42 0x82 [] := by
  intro hclaim
  obtain ⟨front, m1, m2, h1, h2, hlen⟩ := hclaim
  have ho : BCparse ([0x41] ++ 0x42 :: []) = [[0x41], [0x42]] := by decide
  have hcr : BCparse ([0x41] ++ 0x82 :: []) = [[0x41, 0x82]] := by decide
  have ht : BCtail [] = [] := by decide
  rw [ho, ht, List.append_nil] at h1
  rw [hcr, ht, List.append_nil] at h2
  cases front with
  | nil =>
      simp only [List.nil_append] at h1
      rw [← h1] at hlen
      simp at hlen
  | cons f fs =>
      simp only [List.cons_append, List.cons.injEq] at h1 h2
      have : ([0x41] : List Nat) = [0x41, 0x82] := h1.1.trans h2.1.symm
      simp at this

/-- C7 (amended): ByteChunk self-synchronization bound. For every byte stream
and every single-byte alteration, both parses agree from the next start byte
after the corruption point onward, share the chunks completed before the
corruption point, and each differing middle region is at most two chunks (the
chunk open at the corruption point plus the chunk begun at the altered byte). -/
theorem bytechunk_sync_bound (pre : List Nat) (b bp : Nat) (post : List Nat) :
    ∃ front m1 m2 : List (List Nat),
      BCparse (pre ++ b :: post) = front ++ m1 ++ BCtail post ∧
      BCparse (pre ++ bp :: post) = front ++ m2 ++ BCtail post ∧
      m1.length ≤ 2 ∧ m2.length ≤ 2 := by
  obtain ⟨m1, hm1, hl1⟩ := BCrun_cons_bound b post (BCstate pre none)
  obtain ⟨m2, hm2, hl2⟩ := BCrun_cons_bound bp post (BCstate pre none)
  refine ⟨BCout pre none, m1, m2, ?_, ?_, hl1, hl2⟩
  · rw [BCparse, BCrun_append, hm1, List.append_assoc]
  · rw [BCparse, BCrun_append, hm2, List.append_assoc]

/-! ## Standard type header (include/cm-types.h) -/

/-- The sized integer type aliases of cm-types.h that carry `minof_` and
`maxof_` constants: `byte` plus the i-, u- and c-families. -/
inductive CMIntType where
  | byte
  | i8
  | i16
  | i32
  | i64
  | u8
  | u16
  | u32
  | u64
  | c8
  | c16
  | c32
deriving DecidableEq, Fintype

/-- Bit width of each alias, from the typedefs of cm-types.h (char-based
aliases are 8 bits, short 16, int 32, long long 64). -/
def CMIntType.width : CMIntType → Nat
  | .byte => 8
  | .i8 => 8
  | .i16 => 16
  | .i32 => 32
  | .i64 => 64
  | .u8 => 8
  | .u16 => 16
  | .u32 => 32
  | .u64 => 64
  | .c8 => 8
  | .c16 => 16
  | .c32 => 32

/-- Signedness of each alias, from the typedefs of cm-types.h. `byte` is
`typedef signed char byte`, hence signed. -/
def CMIntType.isSigned : CMIntType → Bool
  | .byte => true
  | .i8 => true
  | .i16 => true
  | .i32 => true
  | .i64 => true
  | _ => false

/-- The `minof_*` constant defined in cm-types.h for each alias, verbatim. -/
def minofC : CMIntType → Int
  | .byte => 0
  | .i8 => -128
  | .i16 => -32768
  | .i32 => -2147483648
  | .i64 => -9223372036854775808
  | .u8 => 0
  | .u16 => 0
  | .u32 => 0
  | .u64 => 0
  | .c8 => 0
  | .c16 => 0
  | .c32 => 0

/-- The `maxof_*` constant defined in cm-types.h for each alias, verbatim. -/
def maxofC : CMIntType → Int
  | .byte => 255
  | .i8 => 127
  | .i16 => 32767
  | .i32 => 2147483647
  | .i64 => 9223372036854775807
  | .u8 => 255
  | .u16 => 65535
  | .u32 => 4294967295
  | .u64 => 18446744073709551615
  | .c8 => 255
  | .c16 => 65535
  | .c32 => 4294967295

/-- The mathematically exact lower bound the claim demands: the
two's-complement minimum for signed aliases, 0 for unsigned ones. -/
def specExactMin (t : CMIntType) : Int :=
  if t.isSigned then -(2 ^ (t.width - 1)) else 0

/-- The mathematically exact upper bound the claim demands. -/
def specExactMax (t : CMIntType) : Int :=
  if t.isSigned then 2 ^ (t.width - 1) - 1 else 2 ^ t.width - 1

/-- The amended bounds: exact for every alias except `byte`, whose header
constants are the unsigned 8-bit bounds 0 and 255 despite the signed typedef. -/
def specAmendedMin (t : CMIntType) : Int :=
  if t = CMIntType.byte then 0 else specExactMin t

/-- Amended upper bound: 255 for `byte`, exact elsewhere. -/
def specAmendedMax (t : CMIntType) : Int :=
  if t = CMIntType.byte then 255 else specExactMax t

/-- C4 counterexample: for the alias `byte` (typedef'd `signed char`), the
header constants `minof_byte = 0` / `maxof_byte = 255` are not the exact
two's-complement 8-bit bounds -128 / 127, so the claim fails at `byte`. -/
theorem cm_types_bounds_byte_mismatch :
    ¬ (minofC CMIntType.byte = specExactMin CMIntType.byte ∧
       maxofC CMIntType.byte = specExactMax CMIntType.byte) := by
  decide

/-- C4 (amended): for every sized integer alias other than `byte`, the
`minof_`/`maxof_` constants of cm-types.h equal the exact bounds for the
alias's width and signedness; for `byte` they are instead 0 and 255, the
unsigned 8-bit bounds. -/
theorem cm_types_bounds_amended :
    ∀ t : CMIntType, minofC t = specAmendedMin t ∧ maxofC t = specAmendedMax t := by
  decide

/-! ## CLI entry stubs (unnamed C file with cm / cmin / cminus) -/

/-- The compiler stub: `int cm(int argc, char **argv)` prints one fixed line
and returns 0. Modelled as the list of strings printed plus the return value. -/
def cm (argc : Nat) (argv : List String) : List String × Int :=
  (["Hello C-Minus Compiler\n"], 0)

/-- The tools stub: `int cmin(int argc, char **argv)`. -/
def cmin (argc : Nat) (argv : List String) : List String × Int :=
  (["Hello C-Minus Tools\n"], 0)

/-- The documentation stub: `int cminus(int argc, char **argv)`. -/
def cminus (argc : Nat) (argv : List String) : List String × Int :=
  (["Hello C-Minus Documentation\n"], 0)

/-- C8: CLI stub contract. For every argument count and vector, each stub
prints its fixed role-identifying greeting exactly once (its output trace is
exactly that one line, so the greeting's count in the trace is one and
nothing else is printed) and returns exit status 0. -/
theorem cli_stub_contract :
    ∀ (argc : Nat) (argv : List String),
      (cm argc argv).1 = ["Hello C-Minus Compiler\n"] ∧
      (cm argc argv).1.count "Hello C-Minus Compiler\n" = 1 ∧
      (cm argc argv).2 = 0 ∧
      (cmin argc argv).1 = ["Hello C-Minus Tools\n"] ∧
      (cmin argc argv).1.count "Hello C-Minus Tools\n" = 1 ∧
      (cmin argc argv).2 = 0 ∧
      (cminus argc argv).1 = ["Hello C-Minus Documentation\n"] ∧
      (cminus argc argv).1.count "Hello C-Minus Documentation\n" = 1 ∧
      (cminus argc argv).2 = 0 := by
  intro argc argv
  simp [cm, cmin, cminus, List.count_cons, List.count_nil]

/-! ## Version metadata header (include/c-minus.h) -/

/-- Implementation major version from c-minus.h. -/
def cminus_v_major : Nat := 1

/-- Implementation minor version from c-minus.h. -/
def cminus_v_minor : Nat := 0

/-- Implementation patch version from c-minus.h. -/
def cminus_v_patch : Nat := 0

/-- Implementation version string from c-minus.h (`__cminus_v_str__`). -/
def cminus_v_str : String := "1.0.0"

/-- Dotted concatenation of three version components. -/
def versionDotted (ma mi pa : Nat) : String :=
  toString ma ++ "." ++ toString mi ++ "." ++ toString pa

/-- C9: version header internal consistency. The version string of the header
equals the dotted concatenation of its major, minor and patch constants,
namely "1.0.0". -/
theorem version_header_consistent :
    cminus_v_str = versionDotted cminus_v_major cminus_v_minor cminus_v_patch ∧
    cminus_v_str = "1.0.0" := by
  constructor <;> decide

/-! ## Boolean type of cm-types.h -/

/-- Representable values of the header's `bool`, which is
`typedef unsigned char bool`: every 8-bit unsigned value. -/
def isCmBoolValue (n : Nat) : Bool := decide (n < 2 ^ 8)

/-- The header's `#define true 1`. -/
def cmTrue : Nat := 1

/-- The header's `#define false 0`. -/
def cmFalse : Nat := 0

/-- The header's `#define truel(n) (n)`: the identity, no normalization. -/
def truel (n : Nat) : Nat := n

/-- C10: the header's `bool` admits non-boolean values. The value 2 is a
representable `bool` yet equals neither `true` (1) nor `false` (0), and
`truel` returns every argument unchanged, normalizing nothing. -/
theorem cm_bool_admits_nonboolean :
    isCmBoolValue 2 = true ∧ (2 : Nat) ≠ cmTrue ∧ (2 : Nat) ≠ cmFalse ∧
    ∀ n : Nat, truel n = n := by
  refine ⟨by decide, by decide, by decide, fun n => rfl⟩
